import Mathlib

/-
Verification of the training utilities of the contrastive-3d-protein-prediction
repository (src/training/utils.py): the early-stopping/checkpoint monitor, the
dataset split calculator, the running-accuracy accumulator, the batch accuracy
scorer, and the checkpoint path derivations.

Paths are modelled as lists of characters; validation losses, percentages and
logits as exact rationals; Python ints as Lean integers.
-/

/-- A filesystem path, modelled as its list of characters. -/
abbrev FPath := List Char

/-- Character is neither '.' nor '/' (used when scanning for the extension dot). -/
def notDotSlash (c : Char) : Bool := !(c == '.' || c == '/')

/-- Character is not the path separator '/'. -/
def notSlash (c : Char) : Bool := !(c == '/')

/-- Model of Python `os.path.splitext` (posixpath): split `p` into `(root, ext)`,
where `ext` starts at the last '.' provided it lies after the last '/' and the
basename does not consist solely of leading dots; otherwise `ext` is empty.
Implemented by scanning the reversed character list. -/
def splitext (p : FPath) : FPath × FPath :=
  if (p.reverse.dropWhile notDotSlash).head? = some '.' ∧
      ((p.reverse.dropWhile notDotSlash).tail.takeWhile notSlash).any
        (fun c => !(c == '.')) = true then
    ((p.reverse.dropWhile notDotSlash).tail.reverse,
     '.' :: (p.reverse.takeWhile notDotSlash).reverse)
  else (p, [])

/-- Model of Python `os.path.dirname` (posixpath): everything up to the last '/',
with trailing slashes stripped unless the result consists only of slashes. -/
def dirname (p : FPath) : FPath :=
  if (p.reverse.dropWhile notSlash) = [] ∨
      (p.reverse.dropWhile notSlash).all (fun c => c == '/') = true then
    (p.reverse.dropWhile notSlash).reverse
  else ((p.reverse.dropWhile notSlash).dropWhile (fun c => c == '/')).reverse

/-- Model of Python `os.path.basename` (posixpath): everything after the last '/'. -/
def basename (p : FPath) : FPath := (p.reverse.takeWhile notSlash).reverse

/-- Model of Python `os.path.join` (posixpath) on two components. -/
def joinPath (a b : FPath) : FPath :=
  if b.head? = some '/' then b
  else if a = [] ∨ a.getLast? = some '/' then a ++ b
  else a ++ '/' :: b

/-- The decimal digit character for `d` (callers only pass `d < 10`). -/
def digitChar (d : ℕ) : Char :=
  match d with
  | 0 => '0' | 1 => '1' | 2 => '2' | 3 => '3' | 4 => '4'
  | 5 => '5' | 6 => '6' | 7 => '7' | 8 => '8' | _ => '9'

/-- Decimal digits of `n`, least significant first, with explicit fuel so the
recursion is structural. `fuel = n` always suffices. -/
def natDigitsRev (fuel n : ℕ) : List Char :=
  match fuel, n with
  | 0, _ => []
  | _ + 1, 0 => []
  | f + 1, n + 1 => digitChar ((n + 1) % 10) :: natDigitsRev f ((n + 1) / 10)

/-- Decimal rendering of a natural number, most significant digit first. -/
def natToChars (n : ℕ) : List Char :=
  if n = 0 then ['0'] else (natDigitsRev n n).reverse

/-- Pad a digit string on the left with '0' to length 6. -/
def padZeros6 (cs : List Char) : List Char := List.replicate (6 - cs.length) '0' ++ cs

/-- Round a rational to the nearest integer, ties to even (the rounding used by
fixed-point formatting). -/
def roundHalfEven (q : ℚ) : ℤ :=
  if q - (⌊q⌋ : ℚ) < 1 / 2 then ⌊q⌋
  else if 1 / 2 < q - (⌊q⌋ : ℚ) then ⌊q⌋ + 1
  else if ⌊q⌋ % 2 = 0 then ⌊q⌋ else ⌊q⌋ + 1

/-- Model of the Python f-string fixed-point formatting `f"{q:.6f}"` on exact
rational values: sign, integer part, '.', and exactly six decimal digits. -/
def format6f (q : ℚ) : List Char :=
  (if roundHalfEven (q * 1000000) < 0 then ['-'] else []) ++
    natToChars ((roundHalfEven (q * 1000000)).natAbs / 1000000) ++
    '.' :: padZeros6 (natToChars ((roundHalfEven (q * 1000000)).natAbs % 1000000))

/-- `EarlyStopping.save_checkpoint` (src/training/utils.py:65-86), model-weights
path: `p[0] + f"-state-dict-val_loss={val_loss:.6f}" + p[1]` for
`p = os.path.splitext(self.path)`. -/
def model_path (path : FPath) (val_loss : ℚ) : FPath :=
  (splitext path).1 ++ "-state-dict-val_loss=".toList ++ format6f val_loss ++ (splitext path).2

/-- `EarlyStopping.save_checkpoint`, constructor-parameters path:
`p[0] + "-parameters" + p[1]`. -/
def constructor_parameters_path (path : FPath) : FPath :=
  (splitext path).1 ++ "-parameters".toList ++ (splitext path).2

/-- `EarlyStopping.save_checkpoint`, optimizer path as actually written:
`os.path.join(self.dir_path, "optimizer-state-dict" + p[1])`, where
`self.dir_path = os.path.dirname(path)`. -/
def optimizer_write_path (path : FPath) : FPath :=
  joinPath (dirname path) ("optimizer-state-dict".toList ++ (splitext path).2)

/-- The three paths written by one `EarlyStopping.save_checkpoint` call, in
write order: model weights, constructor parameters, optimizer state. -/
def save_checkpoint_paths (path : FPath) (val_loss : ℚ) : List FPath :=
  [model_path path val_loss, constructor_parameters_path path, optimizer_write_path path]

/-- Effect of `EarlyStopping.save_checkpoint` on the contents of the checkpoint
directory `self.dir_path`, modelled as the list of file basenames it contains:
every file whose name ends with the extension `p[1]` is removed
(`os.listdir` loop, src/training/utils.py:79-81), then the three artifacts are
written (src/training/utils.py:83-85). -/
def save_checkpoint_fs (path : FPath) (val_loss : ℚ) (dir : List FPath) : List FPath :=
  let ext := (splitext path).2
  (dir.filter (fun f => !(ext.isSuffixOf f))) ++
    [basename (model_path path val_loss), basename (constructor_parameters_path path),
     "optimizer-state-dict".toList ++ ext]

/-- `load_model_checkpoint` (src/training/utils.py:118-133), constructor-parameters
path derived from the model checkpoint path: `os.path.join(checkpoint_dir,
f"{graph_model_name}-parameters{ext}")` with `graph_model_name =
os.path.basename(checkpoint_path).split("-")[0]`. -/
def load_constructor_parameters_path (cp : FPath) : FPath :=
  joinPath (dirname cp)
    (((basename cp).takeWhile (fun c => !(c == '-'))) ++ "-parameters".toList ++ (splitext cp).2)

/-- `load_model_checkpoint`, optimizer path derived from the model checkpoint
path: `os.path.join(checkpoint_dir, f"optimizer-state-dict{ext}")`. -/
def load_optimizer_path (cp : FPath) : FPath :=
  joinPath (dirname cp) ("optimizer-state-dict".toList ++ (splitext cp).2)

/-- State of the `EarlyStopping` monitor (src/training/utils.py:20-63).
`best_score = none` models Python `None`; `val_loss_min = none` models the
initial `np.Inf`. `saved` logs the validation losses at which
`save_checkpoint` was invoked, most recent last (it models the persist events;
the on-disk effect of one persist is `save_checkpoint_fs`). -/
structure EarlyStopping where
  patience : ℤ
  delta : ℚ
  counter : ℤ
  best_score : Option ℚ
  early_stop : Bool
  val_loss_min : Option ℚ
  saved : List ℚ
deriving Repr, DecidableEq

/-- The state built by `EarlyStopping.__init__` (src/training/utils.py:23-46). -/
def EarlyStopping.init (patience : ℤ) (delta : ℚ) : EarlyStopping :=
  { patience := patience, delta := delta, counter := 0, best_score := none,
    early_stop := false, val_loss_min := none, saved := [] }

/-- One `EarlyStopping.__call__(val_loss, model, optimizer)`
(src/training/utils.py:48-63). `score = -val_loss`; an unset best score is
recorded and a checkpoint saved; `score < best_score + delta` increments the
counter and sets `early_stop` once `counter >= patience`; otherwise the best
score is updated, a checkpoint saved, and the counter reset. -/
def EarlyStopping.call (s : EarlyStopping) (val_loss : ℚ) : EarlyStopping :=
  let score := -val_loss
  match s.best_score with
  | none =>
      { s with best_score := some score, saved := s.saved ++ [val_loss],
               val_loss_min := some val_loss }
  | some best =>
      if score < best + s.delta then
        { s with counter := s.counter + 1,
                 early_stop := if s.patience ≤ s.counter + 1 then true else s.early_stop }
      else
        { s with best_score := some score, saved := s.saved ++ [val_loss],
                 val_loss_min := some val_loss, counter := 0 }

/-- Feeding the monitor one validation loss per epoch, in order. -/
def EarlyStopping.run (s : EarlyStopping) (losses : List ℚ) : EarlyStopping :=
  losses.foldl EarlyStopping.call s

/-- Python `int()` applied to a rational: truncation toward zero. -/
def int_trunc (q : ℚ) : ℤ := if q < 0 then ⌈q⌉ else ⌊q⌋

/-- `get_splits` (src/training/utils.py:89-115). -/
def get_splits (n_instances : ℕ) (train_split_percentage val_split_percentage : ℚ) :
    ℤ × ℤ × ℤ :=
  if train_split_percentage = 0 ∧ val_split_percentage = 0 then (0, 0, (n_instances : ℤ))
  else
    let train_split := int_trunc ((n_instances : ℚ) * train_split_percentage / 100)
    let remaining_split := (n_instances : ℤ) - train_split
    let val_split := int_trunc ((n_instances : ℚ) * val_split_percentage / 100)
    let test_split := remaining_split - val_split
    if 100 ≤ train_split_percentage + val_split_percentage then
      (train_split + test_split, val_split, 0)
    else (train_split, val_split, test_split)

/-- `compute_running_accuracy` (src/training/utils.py:373-374):
`prev_acc + 1 / step * (curr_acc - prev_acc)`. -/
def compute_running_accuracy (curr_acc prev_acc : ℚ) (step : ℕ) : ℚ :=
  prev_acc + 1 / (step : ℚ) * (curr_acc - prev_acc)

/-- Iterating `compute_running_accuracy` over a sequence of per-batch
accuracies exactly as the training/validation loops do
(src/training/utils.py:309, 362): the accumulator starts at 0 and the 1-based
batch index `batch_idx + 1` is the step. -/
def running_accuracy (accs : List ℚ) : ℚ :=
  (accs.foldl (fun (p : ℚ × ℕ) a => (compute_running_accuracy a p.1 (p.2 + 1), p.2 + 1))
    ((0 : ℚ), (0 : ℕ))).1

/-- Model of `torch.argmax` over a list: index of the first maximal element,
given the running best index `bi`, best value `bv`, and next index `i`. -/
def argmaxFrom : ℕ → ℕ → ℚ → List ℚ → ℕ
  | _, bi, _, [] => bi
  | i, bi, bv, x :: xs =>
      if bv < x then argmaxFrom (i + 1) i x xs else argmaxFrom (i + 1) bi bv xs

/-- Index of the first maximal element of a list (`torch.argmax` along one
dimension; the empty case never arises on the matrices considered). -/
def argmax : List ℚ → ℕ
  | [] => 0
  | x :: xs => argmaxFrom 1 0 x xs

/-- Row `i` of a logits matrix. -/
def row (logits : List (List ℚ)) (i : ℕ) : List ℚ := logits.getD i []

/-- Column `j` of a logits matrix. -/
def col (logits : List (List ℚ)) (j : ℕ) : List ℚ := logits.map (fun r => r.getD j 0)

/-- `(torch.argmax(graph_logits, 1) == ground_truth).sum()`: the number of rows
whose argmax equals the row index, `ground_truth = torch.arange(len(graph_logits))`. -/
def count_correct_rows (logits : List (List ℚ)) : ℕ :=
  ((List.range logits.length).filter (fun i => argmax (row logits i) == i)).length

/-- `(torch.argmax(graph_logits, 0) == ground_truth).sum()`: the number of
columns whose argmax equals the column index. -/
def count_correct_cols (logits : List (List ℚ)) : ℕ :=
  ((List.range logits.length).filter (fun j => argmax (col logits j) == j)).length

/-- `compute_accuracy` (src/training/utils.py:377-382):
`(acc_g + acc_d) / 2 / batch_size`. -/
def compute_accuracy (graph_logits : List (List ℚ)) (batch_size : ℕ) : ℚ :=
  ((count_correct_rows graph_logits : ℚ) + (count_correct_cols graph_logits : ℚ)) / 2
    / (batch_size : ℚ)

/-- The identity matrix of size `n` scaled by `c`, as a logits matrix. -/
def scaled_identity (n : ℕ) (c : ℚ) : List (List ℚ) :=
  (List.range n).map (fun i => (List.range n).map (fun j => if i = j then c else 0))

/-- Modelled from the spec: "result = (count_correct_rows + count_correct_cols)
/ 2 / batch_size", with correctness of a row/column meaning its max-scoring
index equals the row/column index, indices ranging over the declared batch
size. -/
def spec_accuracy (logits : List (List ℚ)) (batch_size : ℕ) : ℚ :=
  (((List.range batch_size).countP (fun i => argmax (row logits i) == i) : ℚ) +
    ((List.range batch_size).countP (fun j => argmax (col logits j) == j) : ℚ)) / 2
    / (batch_size : ℚ)

/-- Modelled from the spec: checkpoint file naming
"`<base>-state-dict-val_loss=<loss:.6f><ext>`, `<base>-parameters<ext>`,
`<dir>/optimizer-state-dict<ext>`", where `<base>`/`<ext>` are the stem and
extension of the base checkpoint path and `<dir>/` denotes joining onto its
directory. -/
def spec_checkpoint_paths (base ext dir : FPath) (val_loss : ℚ) : List FPath :=
  [base ++ "-state-dict-val_loss=".toList ++ format6f val_loss ++ ext,
   base ++ "-parameters".toList ++ ext,
   joinPath dir ("optimizer-state-dict".toList ++ ext)]

/-! ### General helper lemmas -/

lemma takeWhile_append_of_all {α : Type} (xs ys : List α) (p : α → Bool)
    (h : ∀ x ∈ xs, p x = true) :
    (xs ++ ys).takeWhile p = xs ++ ys.takeWhile p := by
  induction xs with
  | nil => simp
  | cons a as ih =>
      simp only [List.cons_append, List.takeWhile_cons, h a (by simp)]
      simp only [ih fun x hx => h x (by simp [hx])]
      simp

lemma dropWhile_append_of_all {α : Type} (xs ys : List α) (p : α → Bool)
    (h : ∀ x ∈ xs, p x = true) :
    (xs ++ ys).dropWhile p = ys.dropWhile p := by
  induction xs with
  | nil => simp
  | cons a as ih =>
      simp only [List.cons_append, List.dropWhile_cons, h a (by simp)]
      exact ih fun x hx => h x (by simp [hx])

lemma int_trunc_eq_floor (q : ℚ) (h : 0 ≤ q) : int_trunc q = ⌊q⌋ := by
  unfold int_trunc
  rw [if_neg (not_lt.mpr h)]

/-! ### C9: checkpoint file naming -/

/-- C9: for every base checkpoint path with stem `<base>` and extension `<ext>`,
a persist at validation loss `L` writes exactly the three paths
`<base>-state-dict-val_loss=<L formatted with 6 decimal places><ext>`,
`<base>-parameters<ext>`, and `<directory of base>/optimizer-state-dict<ext>`
(the last joined onto the directory of the base path). -/
theorem save_checkpoint_paths_naming (path : FPath) (val_loss : ℚ) :
    save_checkpoint_paths path val_loss =
      spec_checkpoint_paths (splitext path).1 (splitext path).2 (dirname path) val_loss := rfl

/-! ### C3 and C4: the split calculator -/

/-- C3: for every n ≥ 0 and percentages in [0,100], `get_splits` returns three
integer counts that sum to n, each nonnegative; and if both percentages are 0
the result is exactly (0, 0, n). -/
theorem get_splits_sum_and_nonneg (n : ℕ) (tp vp : ℚ)
    (htp0 : 0 ≤ tp) (htp1 : tp ≤ 100) (hvp0 : 0 ≤ vp) (hvp1 : vp ≤ 100) :
    (get_splits n tp vp).1 + (get_splits n tp vp).2.1 + (get_splits n tp vp).2.2 = n ∧
    0 ≤ (get_splits n tp vp).1 ∧ 0 ≤ (get_splits n tp vp).2.1 ∧
    0 ≤ (get_splits n tp vp).2.2 ∧
    (tp = 0 → vp = 0 → get_splits n tp vp = (0, 0, (n : ℤ))) := by
  have hn : (0 : ℚ) ≤ (n : ℚ) := by positivity
  by_cases h0 : tp = 0 ∧ vp = 0
  · have hsplit : get_splits n tp vp = (0, 0, (n : ℤ)) := by
      unfold get_splits
      rw [if_pos h0]
    rw [hsplit]
    refine ⟨by ring, le_refl _, le_refl _, Int.ofNat_nonneg n, fun _ _ => rfl⟩
  · have htr0 : (0 : ℚ) ≤ (n : ℚ) * tp / 100 := by positivity
    have hvr0 : (0 : ℚ) ≤ (n : ℚ) * vp / 100 := by positivity
    have htrn : (n : ℚ) * tp / 100 ≤ (n : ℚ) := by
      rw [div_le_iff₀ (by norm_num : (0:ℚ) < 100)]
      nlinarith
    have hvrn : (n : ℚ) * vp / 100 ≤ (n : ℚ) := by
      rw [div_le_iff₀ (by norm_num : (0:ℚ) < 100)]
      nlinarith
    have hta : int_trunc ((n : ℚ) * tp / 100) = ⌊(n : ℚ) * tp / 100⌋ :=
      int_trunc_eq_floor _ htr0
    have hva : int_trunc ((n : ℚ) * vp / 100) = ⌊(n : ℚ) * vp / 100⌋ :=
      int_trunc_eq_floor _ hvr0
    have hta0 : 0 ≤ int_trunc ((n : ℚ) * tp / 100) := by
      rw [hta]; exact Int.le_floor.mpr (by exact_mod_cast htr0)
    have hva0 : 0 ≤ int_trunc ((n : ℚ) * vp / 100) := by
      rw [hva]; exact Int.le_floor.mpr (by exact_mod_cast hvr0)
    have htan : int_trunc ((n : ℚ) * tp / 100) ≤ (n : ℤ) := by
      rw [hta]
      have h1 : ⌊(n : ℚ) * tp / 100⌋ ≤ ⌊(n : ℚ)⌋ := Int.floor_mono htrn
      simpa using h1
    have hvan : int_trunc ((n : ℚ) * vp / 100) ≤ (n : ℤ) := by
      rw [hva]
      have h1 : ⌊(n : ℚ) * vp / 100⌋ ≤ ⌊(n : ℚ)⌋ := Int.floor_mono hvrn
      simpa using h1
    by_cases hfull : 100 ≤ tp + vp
    · have hsplit : get_splits n tp vp =
          (int_trunc ((n : ℚ) * tp / 100) +
            ((n : ℤ) - int_trunc ((n : ℚ) * tp / 100) - int_trunc ((n : ℚ) * vp / 100)),
           int_trunc ((n : ℚ) * vp / 100), 0) := by
        unfold get_splits
        rw [if_neg h0, if_pos hfull]
      rw [hsplit]
      refine ⟨by ring, ?_, hva0, le_refl _, fun h1 h2 => absurd ⟨h1, h2⟩ h0⟩
      show 0 ≤ int_trunc ((n : ℚ) * tp / 100) +
        ((n : ℤ) - int_trunc ((n : ℚ) * tp / 100) - int_trunc ((n : ℚ) * vp / 100))
      omega
    · have hsum : (n : ℚ) * tp / 100 + (n : ℚ) * vp / 100 ≤ (n : ℚ) := by
        rw [div_add_div_same, div_le_iff₀ (by norm_num : (0:ℚ) < 100)]
        nlinarith [le_of_not_le hfull]
      have htest : int_trunc ((n : ℚ) * tp / 100) + int_trunc ((n : ℚ) * vp / 100) ≤ (n : ℤ) := by
        rw [hta, hva]
        have h1 : ((⌊(n : ℚ) * tp / 100⌋ + ⌊(n : ℚ) * vp / 100⌋ : ℤ) : ℚ) ≤ (n : ℚ) := by
          push_cast
          have := Int.floor_le ((n : ℚ) * tp / 100)
          have := Int.floor_le ((n : ℚ) * vp / 100)
          linarith
        exact_mod_cast h1
      have hsplit : get_splits n tp vp =
          (int_trunc ((n : ℚ) * tp / 100), int_trunc ((n : ℚ) * vp / 100),
           (n : ℤ) - int_trunc ((n : ℚ) * tp / 100) - int_trunc ((n : ℚ) * vp / 100)) := by
        unfold get_splits
        rw [if_neg h0, if_neg hfull]
      rw [hsplit]
      refine ⟨by ring, hta0, hva0, ?_, fun h1 h2 => absurd ⟨h1, h2⟩ h0⟩
      show 0 ≤ (n : ℤ) - int_trunc ((n : ℚ) * tp / 100) - int_trunc ((n : ℚ) * vp / 100)
      omega

/-- Witness for C3 at n = 10, train 70%, val 20%. -/
theorem get_splits_sum_and_nonneg_witness :
    (get_splits 10 70 20).1 + (get_splits 10 70 20).2.1 + (get_splits 10 70 20).2.2 = 10 ∧
    0 ≤ (get_splits 10 70 20).1 ∧ 0 ≤ (get_splits 10 70 20).2.1 ∧
    0 ≤ (get_splits 10 70 20).2.2 ∧
    ((70 : ℚ) = 0 → (20 : ℚ) = 0 → get_splits 10 70 20 = (0, 0, (10 : ℤ))) :=
  get_splits_sum_and_nonneg 10 70 20 (by norm_num) (by norm_num) (by norm_num) (by norm_num)

/-- C4: with percentages in [0,100] summing to at least 100 (hence not both
zero), the test split is 0 and the remainder is folded into train
(train = n - val). -/
theorem get_splits_no_test_split (n : ℕ) (tp vp : ℚ)
    (htp0 : 0 ≤ tp) (htp1 : tp ≤ 100) (hvp0 : 0 ≤ vp) (hvp1 : vp ≤ 100)
    (hsum : 100 ≤ tp + vp) :
    (get_splits n tp vp).2.2 = 0 ∧
    (get_splits n tp vp).1 = (n : ℤ) - (get_splits n tp vp).2.1 := by
  have h0 : ¬(tp = 0 ∧ vp = 0) := by
    rintro ⟨h1, h2⟩
    rw [h1, h2] at hsum
    norm_num at hsum
  unfold get_splits
  rw [if_neg h0, if_pos hsum]
  exact ⟨rfl, by ring⟩

/-- Witness for C4 at n = 7, train 50%, val 50%. -/
theorem get_splits_no_test_split_witness :
    (get_splits 7 50 50).2.2 = 0 ∧
    (get_splits 7 50 50).1 = (7 : ℤ) - (get_splits 7 50 50).2.1 :=
  get_splits_no_test_split 7 50 50 (by norm_num) (by norm_num) (by norm_num) (by norm_num)
    (by norm_num)

/-! ### C8: the stopped state is terminal -/

lemma EarlyStopping.call_early_stop_mono (s : EarlyStopping) (l : ℚ)
    (h : s.early_stop = true) : (s.call l).early_stop = true := by
  unfold EarlyStopping.call
  cases hb : s.best_score with
  | none => simpa using h
  | some best =>
      by_cases hlt : -l < best + s.delta
      · simp only [hlt, if_pos]
        split <;> simp [h]
      · simp [hlt, h]

/-- C8: the STOPPED state is terminal — once `early_stop` is true, no sequence
of further calls ever makes it false again. -/
theorem early_stop_terminal (s : EarlyStopping) (losses : List ℚ)
    (h : s.early_stop = true) : (s.run losses).early_stop = true := by
  induction losses generalizing s with
  | nil => exact h
  | cons l ls ih =>
      simp only [EarlyStopping.run, List.foldl_cons]
      exact ih _ (EarlyStopping.call_early_stop_mono s l h)

/-- Witness for C8: a concrete stopped state stays stopped over two more calls. -/
theorem early_stop_terminal_witness :
    ({ patience := 1, delta := 0, counter := 1, best_score := some (-1),
       early_stop := true, val_loss_min := some 1,
       saved := [1] } : EarlyStopping).early_stop = true ∧
    (({ patience := 1, delta := 0, counter := 1, best_score := some (-1),
        early_stop := true, val_loss_min := some 1,
        saved := [1] } : EarlyStopping).run [5, 0]).early_stop = true :=
  ⟨rfl, early_stop_terminal _ [5, 0] rfl⟩

/-! ### C2: the running-accuracy accumulator computes the arithmetic mean -/

lemma running_accuracy_fold (accs : List ℚ) :
    ∀ (m : ℚ) (j : ℕ), 1 ≤ j →
      (accs.foldl (fun (p : ℚ × ℕ) a => (compute_running_accuracy a p.1 (p.2 + 1), p.2 + 1))
        (m, j)).1 = ((j : ℚ) * m + accs.sum) / ((j : ℚ) + (accs.length : ℚ)) := by
  induction accs with
  | nil =>
      intro m j hj
      have hj0 : ((j : ℚ)) ≠ 0 := by positivity
      simp only [List.foldl_nil, List.sum_nil, List.length_nil, Nat.cast_zero, add_zero]
      rw [mul_div_cancel_left₀ _ hj0]
  | cons a as ih =>
      intro m j hj
      simp only [List.foldl_cons]
      rw [ih (compute_running_accuracy a m (j + 1)) (j + 1) (by omega)]
      have hj1 : ((j : ℚ) + 1) ≠ 0 := by positivity
      have hd : ((j : ℚ) + 1 + (as.length : ℚ)) ≠ 0 := by positivity
      unfold compute_running_accuracy
      simp only [List.sum_cons, List.length_cons]
      push_cast
      field_simp
      ring

/-- C2: for every nonempty sequence of batch accuracies, iterating
`compute_running_accuracy` from 0 with 1-based steps yields exactly the
arithmetic mean of the sequence (over exact arithmetic). -/
theorem running_accuracy_eq_mean (accs : List ℚ) (h : accs ≠ []) :
    running_accuracy accs = accs.sum / (accs.length : ℚ) := by
  match accs, h with
  | a :: as, _ =>
      unfold running_accuracy
      simp only [List.foldl_cons]
      have h2 : (compute_running_accuracy a 0 (0 + 1), (0 : ℕ) + 1) = (a, 1) := by
        unfold compute_running_accuracy
        norm_num
      rw [h2, running_accuracy_fold as a 1 le_rfl]
      simp only [List.sum_cons, List.length_cons]
      push_cast
      ring_nf

/-- Witness for C2 on the sequence [1, 2, 6], whose mean is 3. -/
theorem running_accuracy_eq_mean_witness :
    ([(1 : ℚ), 2, 6] ≠ []) ∧ running_accuracy [1, 2, 6] = ([(1 : ℚ), 2, 6]).sum / 3 :=
  ⟨by simp, by
    have h := running_accuracy_eq_mean [1, 2, 6] (by simp)
    simpa using h⟩

/-! ### C7: single-checkpoint retention -/

lemma notSlash_of_notDotSlash (c : Char) (h : notDotSlash c = true) : notSlash c = true := by
  unfold notDotSlash at h
  unfold notSlash
  simp only [Bool.not_eq_true', Bool.or_eq_false_iff] at h
  simp [h.2]

lemma splitext_ext_shape (p : FPath) :
    (splitext p).2 = [] ∨
      ∃ t, (splitext p).2 = '.' :: t ∧ ∀ c ∈ t, notDotSlash c = true := by
  unfold splitext
  split_ifs with h
  · right
    refine ⟨(p.reverse.takeWhile notDotSlash).reverse, rfl, ?_⟩
    intro c hc
    exact List.mem_takeWhile_imp (List.mem_reverse.mp hc)
  · left
    rfl

lemma isSuffixOf_append (X E : FPath) : E.isSuffixOf (X ++ E) = true := by
  rw [List.isSuffixOf]
  simp

lemma nil_isSuffixOf (f : FPath) : List.isSuffixOf [] f = true := by
  rw [List.isSuffixOf]
  simp

lemma basename_append_no_slash (Y E : FPath) (hE : ∀ c ∈ E, notSlash c = true) :
    basename (Y ++ E) = basename Y ++ E := by
  unfold basename
  rw [List.reverse_append,
    takeWhile_append_of_all _ _ notSlash (fun c hc => hE c (List.mem_reverse.mp hc)),
    List.reverse_append, List.reverse_reverse]

lemma ext_all_notSlash (p : FPath) (t : FPath) (h : (splitext p).2 = '.' :: t)
    (ht : ∀ c ∈ t, notDotSlash c = true) : ∀ c ∈ (splitext p).2, notSlash c = true := by
  rw [h]
  intro c hc
  rcases List.mem_cons.mp hc with rfl | hc2
  · rfl
  · exact notSlash_of_notDotSlash c (ht c hc2)

lemma ext_isSuffixOf_basename_model (path : FPath) (L : ℚ) :
    (splitext path).2.isSuffixOf (basename (model_path path L)) = true := by
  rcases splitext_ext_shape path with h | ⟨t, h, ht⟩
  · rw [h]
    exact nil_isSuffixOf _
  · unfold model_path
    rw [basename_append_no_slash _ _ (ext_all_notSlash path t h ht)]
    exact isSuffixOf_append _ _

lemma ext_isSuffixOf_basename_cparams (path : FPath) :
    (splitext path).2.isSuffixOf (basename (constructor_parameters_path path)) = true := by
  rcases splitext_ext_shape path with h | ⟨t, h, ht⟩
  · rw [h]
    exact nil_isSuffixOf _
  · unfold constructor_parameters_path
    rw [basename_append_no_slash _ _ (ext_all_notSlash path t h ht)]
    exact isSuffixOf_append _ _

lemma save_checkpoint_fs_mem (path : FPath) (L : ℚ) (dir : List FPath) (f : FPath) :
    f ∈ save_checkpoint_fs path L dir ↔
      (f = basename (model_path path L) ∨ f = basename (constructor_parameters_path path) ∨
       f = "optimizer-state-dict".toList ++ (splitext path).2 ∨
       (f ∈ dir ∧ (splitext path).2.isSuffixOf f = false)) := by
  unfold save_checkpoint_fs
  simp only [List.mem_append, List.mem_filter, List.mem_cons, List.not_mem_nil, or_false,
    Bool.not_eq_true']
  tauto

/-- C7: on every persist, every file in the checkpoint directory whose name ends
with the checkpoint extension is deleted before the three new artifacts are
written; hence after two successive persists on an arbitrary initial directory,
the directory holds exactly the three artifacts of the latest persist plus the
files that never matched the extension, and every extension-matching file in it
is one of the latest three artifacts. -/
theorem checkpoint_retention (path : FPath) (L1 L2 : ℚ) (dir : List FPath) :
    (∀ f, f ∈ save_checkpoint_fs path L2 (save_checkpoint_fs path L1 dir) ↔
      (f = basename (model_path path L2) ∨ f = basename (constructor_parameters_path path) ∨
       f = "optimizer-state-dict".toList ++ (splitext path).2 ∨
       (f ∈ dir ∧ (splitext path).2.isSuffixOf f = false))) ∧
    (∀ f ∈ save_checkpoint_fs path L2 (save_checkpoint_fs path L1 dir),
      (splitext path).2.isSuffixOf f = true →
      f = basename (model_path path L2) ∨ f = basename (constructor_parameters_path path) ∨
        f = "optimizer-state-dict".toList ++ (splitext path).2) := by
  have main : ∀ f, f ∈ save_checkpoint_fs path L2 (save_checkpoint_fs path L1 dir) ↔
      (f = basename (model_path path L2) ∨ f = basename (constructor_parameters_path path) ∨
       f = "optimizer-state-dict".toList ++ (splitext path).2 ∨
       (f ∈ dir ∧ (splitext path).2.isSuffixOf f = false)) := by
    intro f
    rw [save_checkpoint_fs_mem]
    constructor
    · rintro (h | h | h | ⟨hin, hsfx⟩)
      · exact Or.inl h
      · exact Or.inr (Or.inl h)
      · exact Or.inr (Or.inr (Or.inl h))
      · rcases (save_checkpoint_fs_mem path L1 dir f).mp hin with rfl | rfl | rfl | ⟨hind, _⟩
        · rw [ext_isSuffixOf_basename_model path L1] at hsfx; cases hsfx
        · rw [ext_isSuffixOf_basename_cparams path] at hsfx; cases hsfx
        · rw [isSuffixOf_append "optimizer-state-dict".toList (splitext path).2] at hsfx
          cases hsfx
        · exact Or.inr (Or.inr (Or.inr ⟨hind, hsfx⟩))
    · rintro (h | h | h | ⟨hind, hsfx⟩)
      · exact Or.inl h
      · exact Or.inr (Or.inl h)
      · exact Or.inr (Or.inr (Or.inl h))
      · refine Or.inr (Or.inr (Or.inr ⟨?_, hsfx⟩))
        exact (save_checkpoint_fs_mem path L1 dir f).mpr
          (Or.inr (Or.inr (Or.inr ⟨hind, hsfx⟩)))
  refine ⟨main, fun f hf hsfx => ?_⟩
  rcases (main f).mp hf with h | h | h | ⟨_, hfalse⟩
  · exact Or.inl h
  · exact Or.inr (Or.inl h)
  · exact Or.inr (Or.inr h)
  · rw [hsfx] at hfalse
    cases hfalse

/-! ### Early-stopping run lemmas -/

lemma EarlyStopping.call_stagnant (s : EarlyStopping) (l b : ℚ) (hb : s.best_score = some b)
    (hl : -l < b + s.delta) :
    s.call l = { s with
      counter := s.counter + 1
      early_stop := if s.patience ≤ s.counter + 1 then true else s.early_stop } := by
  simp only [EarlyStopping.call, hb]
  rw [if_pos hl]

lemma EarlyStopping.call_improve (s : EarlyStopping) (l b : ℚ) (hb : s.best_score = some b)
    (hl : ¬(-l < b + s.delta)) :
    s.call l = { s with
      best_score := some (-l)
      saved := s.saved ++ [l]
      val_loss_min := some l
      counter := 0 } := by
  simp only [EarlyStopping.call, hb]
  rw [if_neg hl]

lemma EarlyStopping.call_none (s : EarlyStopping) (l : ℚ) (hb : s.best_score = none) :
    s.call l = { s with
      best_score := some (-l)
      saved := s.saved ++ [l]
      val_loss_min := some l } := by
  simp only [EarlyStopping.call, hb]

lemma EarlyStopping.run_stagnant (losses : List ℚ) (b : ℚ) :
    ∀ s : EarlyStopping, s.best_score = some b → (∀ l ∈ losses, -l < b + s.delta) →
    (s.run losses).counter = s.counter + losses.length ∧
    ((s.run losses).early_stop = true ↔
      (s.early_stop = true ∨ (losses ≠ [] ∧ s.patience ≤ s.counter + losses.length))) ∧
    (s.run losses).best_score = some b ∧
    (s.run losses).patience = s.patience ∧
    (s.run losses).delta = s.delta ∧
    (s.run losses).saved = s.saved := by
  induction losses with
  | nil => intro s hb _; simp [EarlyStopping.run, hb]
  | cons l ls ih =>
      intro s hb hstag
      have hcall := EarlyStopping.call_stagnant s l b hb (hstag l (by simp))
      have hb' : (s.call l).best_score = some b := by rw [hcall]; exact hb
      have hδ' : (s.call l).delta = s.delta := by rw [hcall]
      have hcntE : (s.call l).counter = s.counter + 1 := by rw [hcall]
      have hesE : (s.call l).early_stop =
          (if s.patience ≤ s.counter + 1 then true else s.early_stop) := by rw [hcall]
      have hpatE : (s.call l).patience = s.patience := by rw [hcall]
      have hsavE : (s.call l).saved = s.saved := by rw [hcall]
      have hrec := ih (s.call l) hb'
        (fun l2 hl2 => by rw [hδ']; exact hstag l2 (List.mem_cons_of_mem _ hl2))
      have hstep : s.run (l :: ls) = (s.call l).run ls := rfl
      obtain ⟨hcnt, hes, hbs, hpat, hdel, hsav⟩ := hrec
      rw [hcntE] at hcnt
      rw [hesE, hpatE, hcntE] at hes
      rw [hpatE] at hpat
      rw [hδ'] at hdel
      rw [hsavE] at hsav
      refine ⟨?_, ?_, ?_, ?_, ?_, ?_⟩
      · rw [hstep, hcnt]
        simp only [List.length_cons]
        push_cast
        ring
      · rw [hstep, hes]
        simp only [List.length_cons]
        constructor
        · rintro (h1 | ⟨hne, h2⟩)
          · split_ifs at h1 with hp
            · exact Or.inr ⟨by simp, by push_cast; omega⟩
            · exact Or.inl h1
          · exact Or.inr ⟨by simp, by push_cast at h2 ⊢; omega⟩
        · rintro (h1 | ⟨hne, h2⟩)
          · refine Or.inl ?_
            split_ifs <;> simp [h1]
          · by_cases hp : s.patience ≤ s.counter + 1
            · exact Or.inl (by simp [hp])
            · refine Or.inr ⟨?_, ?_⟩
              · intro hnil
                subst hnil
                simp only [List.length_nil, Nat.cast_zero, add_zero] at h2
                omega
              · push_cast at h2 ⊢
                omega
      · rw [hstep]; exact hbs
      · rw [hstep, hpat]
      · rw [hstep, hdel]
      · rw [hstep, hsav]

lemma EarlyStopping.run_improving (losses : List ℚ) :
    ∀ s : EarlyStopping, s.delta ≤ 0 → s.counter = 0 →
    losses.Chain' (fun a b => b < a) →
    (∀ l b, losses.head? = some l → s.best_score = some b → b < -l) →
    (s.run losses).early_stop = s.early_stop ∧
    (s.run losses).counter = 0 ∧
    (s.run losses).saved = s.saved ++ losses ∧
    (∀ l', losses.getLast? = some l' → (s.run losses).best_score = some (-l')) ∧
    (s.run losses).delta = s.delta ∧
    (s.run losses).patience = s.patience := by
  induction losses with
  | nil =>
      intro s _ hcnt _ _
      exact ⟨rfl, hcnt, by simp [EarlyStopping.run], by simp, rfl, rfl⟩
  | cons l ls ih =>
      intro s hδ hcnt hchain hfirst
      have hcall : s.call l = { s with
          best_score := some (-l)
          saved := s.saved ++ [l]
          val_loss_min := some l
          counter := 0 } ∨ s.call l = { s with
          best_score := some (-l)
          saved := s.saved ++ [l]
          val_loss_min := some l } := by
        cases hbb : s.best_score with
        | none => exact Or.inr (EarlyStopping.call_none s l hbb)
        | some b =>
            refine Or.inl (EarlyStopping.call_improve s l b hbb ?_)
            have hbl : b < -l := hfirst l b (by simp) hbb
            intro hcon
            linarith
      have hs' : (s.call l).best_score = some (-l) ∧ (s.call l).saved = s.saved ++ [l] ∧
          (s.call l).counter = 0 ∧ (s.call l).early_stop = s.early_stop ∧
          (s.call l).delta = s.delta ∧ (s.call l).patience = s.patience := by
        rcases hcall with h | h
        · rw [h]; exact ⟨rfl, rfl, rfl, rfl, rfl, rfl⟩
        · rw [h]; exact ⟨rfl, rfl, hcnt, rfl, rfl, rfl⟩
      have hfirst' : ∀ l2 b2, ls.head? = some l2 → (s.call l).best_score = some b2 →
          b2 < -l2 := by
        intro l2 b2 hhead hbest
        rw [hs'.1] at hbest
        injection hbest with hb2
        have hrel : l2 < l := by
          rcases List.chain'_cons'.mp hchain with ⟨hh, -⟩
          exact hh l2 (Option.mem_def.mpr hhead)
        rw [← hb2]
        linarith
      have hrec := ih (s.call l) (by rw [hs'.2.2.2.2.1]; exact hδ) hs'.2.2.1
        (List.Chain'.tail hchain) hfirst'
      have hstep : s.run (l :: ls) = (s.call l).run ls := rfl
      obtain ⟨hes, hcnt2, hsav, hbest, hdel, hpat⟩ := hrec
      refine ⟨?_, ?_, ?_, ?_, ?_, ?_⟩
      · rw [hstep, hes, hs'.2.2.2.1]
      · rw [hstep, hcnt2]
      · rw [hstep, hsav, hs'.2.1, List.append_assoc]
        rfl
      · intro l' hl'
        cases ls with
        | nil =>
            have hll : l = l' := by simpa using hl'
            subst hll
            rw [hstep]
            exact hs'.1
        | cons l2 ls2 =>
            rw [List.getLast?_cons_cons] at hl'
            rw [hstep]
            exact hbest l' hl'
      · rw [hstep, hdel, hs'.2.2.2.2.1]
      · rw [hstep, hpat, hs'.2.2.2.2.2]

/-! ### C6: strictly decreasing losses never stop (amended: delta ≤ 0) -/

/-- C6 counterexample: as stated — for an arbitrary monitor — the claim fails:
with patience = 1 and delta = 1, the strictly decreasing validation-loss
sequence [1, 9/10] sets the stop flag on the second call, because the strict
improvement is smaller than delta. -/
theorem strictly_decreasing_stops_with_positive_delta :
    List.Chain' (fun a b => b < a) [(1 : ℚ), 9/10] ∧
    ((EarlyStopping.init 1 1).run [(1 : ℚ), 9/10]).early_stop = true := by
  constructor
  · norm_num [List.chain'_cons]
  · norm_num [EarlyStopping.run, EarlyStopping.call, EarlyStopping.init, List.foldl]

/-- C6 (amended): for a monitor with delta ≤ 0 — in particular the default
delta = 0 — feeding a strictly decreasing sequence of validation losses from a
fresh state never sets the stop flag; after every prefix of calls the
stagnation counter is 0, every call persisted a checkpoint, and the best score
tracks the last loss seen. -/
theorem strictly_decreasing_never_stops (patience : ℤ) (delta : ℚ) (losses : List ℚ)
    (hδ : delta ≤ 0) (hdec : losses.Chain' (fun a b => b < a)) (k : ℕ) :
    ((EarlyStopping.init patience delta).run (losses.take k)).early_stop = false ∧
    ((EarlyStopping.init patience delta).run (losses.take k)).counter = 0 ∧
    ((EarlyStopping.init patience delta).run (losses.take k)).saved = losses.take k ∧
    (∀ l', (losses.take k).getLast? = some l' →
      ((EarlyStopping.init patience delta).run (losses.take k)).best_score = some (-l')) := by
  have h := EarlyStopping.run_improving (losses.take k) (EarlyStopping.init patience delta)
    hδ rfl (hdec.take k) (fun l b _ hb => by simp [EarlyStopping.init] at hb)
  exact ⟨by rw [h.1]; rfl, h.2.1, by rw [h.2.2.1]; simp [EarlyStopping.init], h.2.2.2.1⟩

/-- Witness for C6 (amended) at patience 3, delta 0, losses [3, 2, 1], k = 3. -/
theorem strictly_decreasing_never_stops_witness :
    ((EarlyStopping.init 3 0).run ([(3 : ℚ), 2, 1].take 3)).early_stop = false ∧
    ((EarlyStopping.init 3 0).run ([(3 : ℚ), 2, 1].take 3)).counter = 0 ∧
    ((EarlyStopping.init 3 0).run ([(3 : ℚ), 2, 1].take 3)).saved = [(3 : ℚ), 2, 1].take 3 ∧
    (∀ l', (([(3 : ℚ), 2, 1].take 3)).getLast? = some l' →
      ((EarlyStopping.init 3 0).run ([(3 : ℚ), 2, 1].take 3)).best_score = some (-l')) :=
  strictly_decreasing_never_stops 3 0 [3, 2, 1] le_rfl (by norm_num [List.chain'_cons]) 3

/-! ### C1: stagnation for patience consecutive calls (amended: strictly
worsening within delta, since an exactly equal loss takes the improvement
branch) -/

/-- C1 counterexample: with patience = 3, delta = 0 and the loss sequence
[1, 1, 1, 1], the stop flag is NOT set after the 4th call — an equal loss
fails the strict test `score < best_score + delta` and is treated as an
improvement, resetting the counter. -/
theorem earlyStopping_equal_losses_no_stop :
    ((EarlyStopping.init 3 0).run [(1 : ℚ), 1, 1, 1]).early_stop = false ∧
    ((EarlyStopping.init 3 0).run [(1 : ℚ), 1, 1, 1]).counter = 0 := by
  constructor
  · norm_num [EarlyStopping.run, EarlyStopping.call, EarlyStopping.init, List.foldl]
  · norm_num [EarlyStopping.run, EarlyStopping.call, EarlyStopping.init, List.foldl]

/-- C1 (amended): from a state with a recorded baseline, counter 0 and the stop
flag unset, feeding `patience` ≥ 1 consecutive losses that are each strictly
worse than best_score + delta (the code's stagnation test) sets the stop flag
exactly on the `patience`-th such call and not before; concretely, with
patience = 3, delta = 0 and losses [1, 2, 2, 2], the first call sets the
baseline and the stop flag becomes true after the 4th call but not after the
3rd. -/
theorem earlyStopping_stagnation_stop (s : EarlyStopping) (b : ℚ) (losses : List ℚ)
    (hb : s.best_score = some b) (hc : s.counter = 0) (he : s.early_stop = false)
    (hp : 1 ≤ s.patience) (hlen : (losses.length : ℤ) = s.patience)
    (hstag : ∀ l ∈ losses, -l < b + s.delta) :
    ((s.run losses).early_stop = true ∧
      ∀ k, k < losses.length → (s.run (losses.take k)).early_stop = false) ∧
    (((EarlyStopping.init 3 0).run [(1 : ℚ), 2, 2, 2]).early_stop = true ∧
      ((EarlyStopping.init 3 0).run [(1 : ℚ), 2, 2]).early_stop = false) := by
  refine ⟨⟨?_, ?_⟩, ?_, ?_⟩
  · have hiff := (EarlyStopping.run_stagnant losses b s hb hstag).2.1
    refine hiff.mpr (Or.inr ⟨?_, ?_⟩)
    · intro hnil
      rw [hnil] at hlen
      simp at hlen
      omega
    · rw [hc]
      omega
  · intro k hk
    have hstag' : ∀ l ∈ losses.take k, -l < b + s.delta :=
      fun l hl => hstag l (List.mem_of_mem_take hl)
    have hiff := (EarlyStopping.run_stagnant (losses.take k) b s hb hstag').2.1
    cases hfe : (s.run (losses.take k)).early_stop with
    | false => rfl
    | true =>
        exfalso
        rw [hfe, he] at hiff
        rcases hiff.mp rfl with hcon | ⟨-, hle⟩
        · cases hcon
        · rw [hc, List.length_take] at hle
          have hminle : min k losses.length = k := by omega
          rw [hminle] at hle
          omega
  · norm_num [EarlyStopping.run, EarlyStopping.call, EarlyStopping.init, List.foldl]
  · norm_num [EarlyStopping.run, EarlyStopping.call, EarlyStopping.init, List.foldl]

/-- Witness for C1 (amended): baseline at loss 1 (best score -1), patience 3,
delta 0, then the three strictly worse losses [2, 2, 2]. -/
theorem earlyStopping_stagnation_stop_witness :
    ((((EarlyStopping.init 3 0).call 1).run [(2 : ℚ), 2, 2]).early_stop = true ∧
      ∀ k, k < [(2 : ℚ), 2, 2].length →
        (((EarlyStopping.init 3 0).call 1).run ([(2 : ℚ), 2, 2].take k)).early_stop = false) ∧
    (((EarlyStopping.init 3 0).run [(1 : ℚ), 2, 2, 2]).early_stop = true ∧
      ((EarlyStopping.init 3 0).run [(1 : ℚ), 2, 2]).early_stop = false) := by
  have h0 := EarlyStopping.call_none (EarlyStopping.init 3 0) 1 rfl
  refine earlyStopping_stagnation_stop ((EarlyStopping.init 3 0).call 1) (-1) [2, 2, 2]
    (by rw [h0]) (by rw [h0]; simp [EarlyStopping.init]) (by rw [h0]; simp [EarlyStopping.init])
    (by rw [h0]; simp [EarlyStopping.init]) (by rw [h0]; simp [EarlyStopping.init]) ?_
  intro l hl
  have hδ0 : ((EarlyStopping.init 3 0).call 1).delta = 0 := by
    rw [h0]
    simp [EarlyStopping.init]
  rw [hδ0]
  fin_cases hl <;> norm_num

/-! ### C5: the batch accuracy scorer -/

lemma argmaxFrom_all_le (xs : List ℚ) :
    ∀ (i bi : ℕ) (bv : ℚ), (∀ x ∈ xs, x ≤ bv) → argmaxFrom i bi bv xs = bi := by
  induction xs with
  | nil => intro i bi bv _; rfl
  | cons x xs ih =>
      intro i bi bv h
      unfold argmaxFrom
      rw [if_neg (not_lt.mpr (h x (by simp)))]
      exact ih (i + 1) bi bv fun y hy => h y (by simp [hy])

lemma argmaxFrom_padded (a : ℕ) :
    ∀ (b i bi : ℕ) (bv c : ℚ), 0 ≤ bv → bv < c →
      argmaxFrom i bi bv (List.replicate a 0 ++ c :: List.replicate b 0) = i + a := by
  induction a with
  | zero =>
      intro b i bi bv c h0 hc
      simp only [List.replicate_zero, List.nil_append]
      unfold argmaxFrom
      rw [if_pos hc]
      rw [argmaxFrom_all_le _ _ _ _ (fun y hy => ?_)]
      · omega
      · have hy0 : y = (0 : ℚ) := List.eq_of_mem_replicate hy
        rw [hy0]
        linarith
  | succ a ih =>
      intro b i bi bv c h0 hc
      rw [List.replicate_succ, List.cons_append]
      unfold argmaxFrom
      rw [if_neg (not_lt.mpr h0)]
      rw [ih b (i + 1) bi bv c h0 hc]
      omega

lemma map_ite_eq_replicate (n : ℕ) :
    ∀ (i : ℕ) (c : ℚ), i < n →
      (List.range n).map (fun j => if i = j then c else 0) =
        List.replicate i (0 : ℚ) ++ c :: List.replicate (n - i - 1) 0 := by
  induction n with
  | zero => intro i c hi; omega
  | succ n ihn =>
      intro i c hi
      rcases Nat.lt_or_ge i n with hin | hin
      · rw [List.range_succ, List.map_append, ihn i c hin]
        simp only [List.map_cons, List.map_nil]
        have hne : i ≠ n := by omega
        rw [if_neg hne]
        have hrep : List.replicate (n - i - 1) (0 : ℚ) ++ [0] =
            List.replicate (n + 1 - i - 1) 0 := by
          rw [← List.replicate_succ']
          congr 1
          omega
        rw [List.append_assoc, List.cons_append, ← List.nil_append
          (List.replicate (n - i - 1) (0 : ℚ) ++ [0])]
        rw [List.nil_append, hrep]
      · have hieq : i = n := by omega
        subst hieq
        rw [List.range_succ, List.map_append]
        simp only [List.map_cons, List.map_nil]
        have hmap : (List.range i).map (fun j => if i = j then c else 0) =
            List.replicate i (0 : ℚ) := by
          have h1 : ∀ x ∈ (List.range i).map (fun j => if i = j then c else 0), x = (0 : ℚ) := by
            intro x hx
            rcases List.mem_map.mp hx with ⟨j, hj, rfl⟩
            rw [List.mem_range] at hj
            rw [if_neg (by omega)]
          have h2 := List.eq_replicate_of_mem h1
          simpa using h2
        rw [hmap]
        have hz : i + 1 - i - 1 = 0 := by omega
        rw [hz, List.replicate_zero]
        simp

lemma argmax_unit (n i : ℕ) (c : ℚ) (hc : 0 < c) (hi : i < n) :
    argmax ((List.range n).map (fun j => if i = j then c else 0)) = i := by
  rw [map_ite_eq_replicate n i c hi]
  cases i with
  | zero =>
      simp only [List.replicate_zero, List.nil_append]
      unfold argmax
      exact argmaxFrom_all_le _ _ _ _ fun y hy => by
        rw [List.eq_of_mem_replicate hy]
        exact le_of_lt hc
  | succ i2 =>
      rw [List.replicate_succ, List.cons_append]
      show argmaxFrom 1 0 0
        (List.replicate i2 0 ++ c :: List.replicate (n - (i2 + 1) - 1) 0) = i2 + 1
      rw [argmaxFrom_padded i2 (n - (i2 + 1) - 1) 1 0 0 c le_rfl hc]
      omega

lemma scaled_identity_length (n : ℕ) (c : ℚ) : (scaled_identity n c).length = n := by
  simp [scaled_identity]

lemma scaled_identity_row (n i : ℕ) (c : ℚ) (hi : i < n) :
    row (scaled_identity n c) i = (List.range n).map (fun j => if i = j then c else 0) := by
  unfold row scaled_identity
  have hlen : i < ((List.range n).map
      (fun i2 => (List.range n).map (fun j => if i2 = j then c else 0))).length := by
    simp [hi]
  rw [List.getD_eq_getElem _ _ hlen]
  simp

lemma scaled_identity_col (n j : ℕ) (c : ℚ) (hj : j < n) :
    col (scaled_identity n c) j = (List.range n).map (fun i => if j = i then c else 0) := by
  unfold col scaled_identity
  rw [List.map_map]
  apply List.map_congr_left
  intro i hi
  rw [List.mem_range] at hi
  simp only [Function.comp]
  have hlen : j < ((List.range n).map (fun j2 => if i = j2 then c else 0)).length := by
    simp [hj]
  rw [List.getD_eq_getElem _ _ hlen]
  simp only [List.getElem_map, List.getElem_range]
  by_cases h : i = j
  · subst h
    simp
  · rw [if_neg h, if_neg fun hh => h hh.symm]

lemma count_correct_rows_identity (n : ℕ) (c : ℚ) (hc : 0 < c) :
    count_correct_rows (scaled_identity n c) = n := by
  unfold count_correct_rows
  rw [scaled_identity_length]
  have hall : ∀ i ∈ List.range n, (argmax (row (scaled_identity n c) i) == i) = true := by
    intro i hi
    rw [List.mem_range] at hi
    rw [scaled_identity_row n i c hi, argmax_unit n i c hc hi]
    simp
  rw [List.filter_eq_self.mpr hall, List.length_range]

lemma count_correct_cols_identity (n : ℕ) (c : ℚ) (hc : 0 < c) :
    count_correct_cols (scaled_identity n c) = n := by
  unfold count_correct_cols
  rw [scaled_identity_length]
  have hall : ∀ j ∈ List.range n, (argmax (col (scaled_identity n c) j) == j) = true := by
    intro j hj
    rw [List.mem_range] at hj
    rw [scaled_identity_col n j c hj, argmax_unit n j c hc hj]
    simp
  rw [List.filter_eq_self.mpr hall, List.length_range]

/-- C5: for a square logits matrix, `compute_accuracy` returns
(count of rows whose max-scoring column equals the row index + count of
columns whose max-scoring row equals the column index) / 2 / batch_size; on a
positively scaled identity matrix it returns 1, and when every row argmax and
every column argmax is off-diagonal it returns 0. -/
theorem compute_accuracy_spec (m : List (List ℚ)) (b : ℕ) (hb : 1 ≤ b)
    (hlen : m.length = b) (hsq : ∀ r ∈ m, r.length = b) :
    compute_accuracy m b = spec_accuracy m b ∧
    (∀ c : ℚ, 0 < c → compute_accuracy (scaled_identity b c) b = 1) ∧
    ((∀ i < b, argmax (row m i) ≠ i) → (∀ j < b, argmax (col m j) ≠ j) →
      compute_accuracy m b = 0) := by
  refine ⟨?_, ?_, ?_⟩
  · unfold compute_accuracy spec_accuracy count_correct_rows count_correct_cols
    rw [hlen, List.countP_eq_length_filter, List.countP_eq_length_filter]
  · intro c hc
    unfold compute_accuracy
    rw [count_correct_rows_identity b c hc, count_correct_cols_identity b c hc]
    have hb0 : ((b : ℚ)) ≠ 0 := by positivity
    field_simp
  · intro hr hcol
    unfold compute_accuracy count_correct_rows count_correct_cols
    have h1 : (List.range m.length).filter (fun i => argmax (row m i) == i) = [] := by
      rw [List.filter_eq_nil_iff]
      intro i hi
      rw [List.mem_range, hlen] at hi
      simp only [beq_iff_eq]
      exact hr i hi
    have h2 : (List.range m.length).filter (fun j => argmax (col m j) == j) = [] := by
      rw [List.filter_eq_nil_iff]
      intro j hj
      rw [List.mem_range, hlen] at hj
      simp only [beq_iff_eq]
      exact hcol j hj
    rw [h1, h2]
    simp

/-- Witness for C5 on the 2 x 2 identity matrix. -/
theorem compute_accuracy_spec_witness :
    compute_accuracy [[(1 : ℚ), 0], [0, 1]] 2 = spec_accuracy [[(1 : ℚ), 0], [0, 1]] 2 ∧
    (∀ c : ℚ, 0 < c → compute_accuracy (scaled_identity 2 c) 2 = 1) ∧
    ((∀ i < 2, argmax (row [[(1 : ℚ), 0], [0, 1]] i) ≠ i) →
      (∀ j < 2, argmax (col [[(1 : ℚ), 0], [0, 1]] j) ≠ j) →
      compute_accuracy [[(1 : ℚ), 0], [0, 1]] 2 = 0) :=
  compute_accuracy_spec [[(1 : ℚ), 0], [0, 1]] 2 (by norm_num) rfl
    (by intro r hr; fin_cases hr <;> rfl)

/-! ### C10: save-then-load path derivation round trip -/

lemma digitChar_notDotSlash (d : ℕ) : notDotSlash (digitChar d) = true :=
  match d with
  | 0 => by decide | 1 => by decide | 2 => by decide | 3 => by decide | 4 => by decide
  | 5 => by decide | 6 => by decide | 7 => by decide | 8 => by decide | _ + 9 => rfl

lemma natDigitsRev_digits (fuel : ℕ) :
    ∀ n c, c ∈ natDigitsRev fuel n → ∃ d, c = digitChar d := by
  induction fuel with
  | zero => intro n c hc; simp [natDigitsRev] at hc
  | succ f ih =>
      intro n c hc
      cases n with
      | zero => simp [natDigitsRev] at hc
      | succ n2 =>
          rw [show natDigitsRev (f + 1) (n2 + 1) =
            digitChar ((n2 + 1) % 10) :: natDigitsRev f ((n2 + 1) / 10) from rfl] at hc
          rcases List.mem_cons.mp hc with rfl | hc2
          · exact ⟨(n2 + 1) % 10, rfl⟩
          · exact ih _ c hc2

lemma natToChars_digits (n : ℕ) : ∀ c ∈ natToChars n, ∃ d, c = digitChar d := by
  intro c hc
  unfold natToChars at hc
  split_ifs at hc with h
  · simp at hc
    exact ⟨0, by rw [hc]; rfl⟩
  · rw [List.mem_reverse] at hc
    exact natDigitsRev_digits n n c hc

lemma natToChars_ne_nil (n : ℕ) : natToChars n ≠ [] := by
  unfold natToChars
  split_ifs with h
  · simp
  · cases n with
    | zero => exact absurd rfl h
    | succ n2 => simp [natDigitsRev]

lemma natToChars_getLast (n : ℕ) : ∃ d, (natToChars n).getLast? = some (digitChar d) := by
  unfold natToChars
  split_ifs with h
  · exact ⟨0, rfl⟩
  · cases n with
    | zero => exact absurd rfl h
    | succ n2 =>
        refine ⟨(n2 + 1) % 10, ?_⟩
        rw [List.getLast?_reverse]
        rfl

lemma format6f_getLast (q : ℚ) :
    ∃ c, (format6f q).getLast? = some c ∧ notDotSlash c = true := by
  obtain ⟨d, hd⟩ := natToChars_getLast ((roundHalfEven (q * 1000000)).natAbs % 1000000)
  refine ⟨digitChar d, ?_, digitChar_notDotSlash d⟩
  unfold format6f
  have hpad : (padZeros6 (natToChars ((roundHalfEven (q * 1000000)).natAbs % 1000000))).getLast?
      = some (digitChar d) := by
    unfold padZeros6
    rw [List.getLast?_append, hd]
    rfl
  rw [List.getLast?_append]
  rw [show ('.' :: padZeros6 (natToChars ((roundHalfEven (q * 1000000)).natAbs % 1000000))) =
    ['.'] ++ padZeros6 (natToChars ((roundHalfEven (q * 1000000)).natAbs % 1000000)) from rfl]
  rw [List.getLast?_append, hpad]
  rfl

lemma format6f_no_slash (q : ℚ) : ∀ c ∈ format6f q, notSlash c = true := by
  intro c hc
  unfold format6f at hc
  rcases List.mem_append.mp hc with h1 | h2
  · rcases List.mem_append.mp h1 with h3 | h4
    · split_ifs at h3
      · simp at h3
        rw [h3]
        decide
      · simp at h3
    · obtain ⟨d, rfl⟩ := natToChars_digits _ c h4
      exact notSlash_of_notDotSlash _ (digitChar_notDotSlash d)
  · rcases List.mem_cons.mp h2 with rfl | h5
    · decide
    · unfold padZeros6 at h5
      rcases List.mem_append.mp h5 with h6 | h7
      · rw [List.eq_of_mem_replicate h6]
        decide
      · obtain ⟨d, rfl⟩ := natToChars_digits _ c h7
        exact notSlash_of_notDotSlash _ (digitChar_notDotSlash d)

lemma splitext_concat (X t : FPath) (ht : ∀ c ∈ t, notDotSlash c = true)
    (hX : ∃ c, X.getLast? = some c ∧ notDotSlash c = true) :
    splitext (X ++ '.' :: t) = (X, '.' :: t) := by
  obtain ⟨c, hcl, hcd⟩ := hX
  have hcs : notSlash c = true := notSlash_of_notDotSlash c hcd
  have hcdot : (!(c == '.')) = true := by
    unfold notDotSlash at hcd
    simp only [Bool.not_eq_true', Bool.or_eq_false_iff] at hcd
    simp [hcd.1]
  have hrev : (X ++ '.' :: t).reverse = t.reverse ++ '.' :: X.reverse := by
    rw [List.reverse_append, List.reverse_cons, List.append_assoc, List.singleton_append]
  have hdropw : (X ++ '.' :: t).reverse.dropWhile notDotSlash = '.' :: X.reverse := by
    rw [hrev, dropWhile_append_of_all _ _ _ (fun x hx => ht x (List.mem_reverse.mp hx))]
    rw [List.dropWhile_cons]
    norm_num [notDotSlash]
  have htakew : (X ++ '.' :: t).reverse.takeWhile notDotSlash = t.reverse := by
    rw [hrev, takeWhile_append_of_all _ _ _ (fun x hx => ht x (List.mem_reverse.mp hx))]
    rw [List.takeWhile_cons]
    norm_num [notDotSlash]
  have hXrev : X.reverse = c :: X.reverse.tail := by
    have h1 : c ∈ X.reverse.head? := by
      rw [List.head?_reverse]
      rw [hcl]
      rfl
    exact (List.cons_head?_tail h1).symm
  have hcond : ((X.reverse.takeWhile notSlash).any (fun x => !(x == '.'))) = true := by
    rw [hXrev, List.takeWhile_cons, if_pos hcs, List.any_cons, hcdot, Bool.true_or]
  unfold splitext
  rw [hdropw, htakew]
  rw [if_pos ⟨rfl, hcond⟩]
  simp

lemma splitext_root_cond (p : FPath) (h : (splitext p).2 ≠ []) :
    ((splitext p).1.reverse.takeWhile notSlash).any (fun c => !(c == '.')) = true := by
  unfold splitext at *
  split_ifs at * with hcond
  · dsimp only
    rw [List.reverse_reverse]
    exact hcond.2
  · simp at h

lemma splitext_append_eq (p : FPath) (h : (splitext p).2 ≠ []) :
    (splitext p).1 ++ (splitext p).2 = p := by
  unfold splitext at *
  split_ifs at * with hcond
  · dsimp only
    obtain ⟨h1, h2⟩ := hcond
    have hsplit : p.reverse.takeWhile notDotSlash ++ p.reverse.dropWhile notDotSlash =
        p.reverse := List.takeWhile_append_dropWhile notDotSlash p.reverse
    have hd : '.' :: (p.reverse.dropWhile notDotSlash).tail = p.reverse.dropWhile notDotSlash :=
      List.cons_head?_tail (by rw [h1]; rfl)
    conv_rhs => rw [← List.reverse_reverse p, ← hsplit, ← hd]
    rw [List.reverse_append, List.reverse_cons, List.append_assoc, List.singleton_append]
  · simp at h

lemma dirname_append_no_slash (X Y : FPath) (hY : ∀ c ∈ Y, notSlash c = true) :
    dirname (X ++ Y) = dirname X := by
  unfold dirname
  rw [List.reverse_append,
    dropWhile_append_of_all _ _ _ (fun x hx => hY x (List.mem_reverse.mp hx))]

lemma joinPath_extend (D R BR E Y : FPath) (hBR : BR ≠ [])
    (hBRs : ∀ c ∈ BR, notSlash c = true)
    (h3 : joinPath D (BR ++ E) = R ++ E) :
    joinPath D (BR ++ Y) = R ++ Y := by
  have hhead : ∀ Z : FPath, ¬((BR ++ Z).head? = some '/') := by
    intro Z hcon
    rcases BR with _ | ⟨c, rest⟩
    · exact hBR rfl
    · simp only [List.cons_append, List.head?_cons, Option.some.injEq] at hcon
      have hns := hBRs c (by simp)
      rw [hcon] at hns
      simp [notSlash] at hns
  unfold joinPath at *
  rw [if_neg (hhead E)] at h3
  rw [if_neg (hhead Y)]
  by_cases hD : D = [] ∨ D.getLast? = some '/'
  · rw [if_pos hD] at h3
    rw [if_pos hD]
    rw [← List.append_assoc] at h3
    have hDR : D ++ BR = R := List.append_cancel_right h3
    rw [← List.append_assoc, hDR]
  · rw [if_neg hD] at h3
    rw [if_neg hD]
    rw [show ('/' :: (BR ++ E)) = ('/' :: BR) ++ E from rfl, ← List.append_assoc] at h3
    have hDR : D ++ '/' :: BR = R := List.append_cancel_right h3
    rw [show ('/' :: (BR ++ Y)) = ('/' :: BR) ++ Y from rfl, ← List.append_assoc, hDR]

lemma basename_all_notSlash (p : FPath) : ∀ c ∈ basename p, notSlash c = true := by
  intro c hc
  unfold basename at hc
  rw [List.mem_reverse] at hc
  exact List.mem_takeWhile_imp hc

lemma format6f_one : format6f 1 = "1.000000".toList := by
  have he : ((1 : ℚ) * 1000000) = (1000000 : ℚ) := by norm_num
  have h1 : roundHalfEven ((1 : ℚ) * 1000000) = 1000000 := by
    rw [he]
    unfold roundHalfEven
    have hf : ⌊(1000000 : ℚ)⌋ = 1000000 := by
      rw [show ((1000000 : ℚ)) = ((1000000 : ℤ) : ℚ) by norm_num, Int.floor_intCast]
    rw [hf]
    norm_num
  unfold format6f
  rw [h1]
  decide

/-- C10 counterexample: for the base checkpoint path "model" (empty extension)
at validation loss 1, `save_checkpoint` writes the constructor-parameters file
"model-parameters", but `load_model_checkpoint` applied to the written
model-weights path "model-state-dict-val_loss=1.000000" derives
"model-parameters.000000" — `os.path.splitext` of the model path picks up
".000000" as extension — so the round trip fails. -/
theorem save_load_roundtrip_counterexample :
    load_constructor_parameters_path (model_path "model".toList 1) ≠
      constructor_parameters_path "model".toList := by
  have h1 : model_path "model".toList 1 =
      "model-state-dict-val_loss=1.000000".toList := by
    unfold model_path
    rw [format6f_one]
    decide
  rw [h1]
  decide

/-- C10 (amended): for every base checkpoint path with a nonempty extension,
whose filename stem contains no '-', and which is reconstructed exactly by
joining its directory name with its base name (no redundant slashes), the
constructor-parameters and optimizer-state paths that `load_model_checkpoint`
derives from the model-weights path written by `EarlyStopping.save_checkpoint`
are exactly the paths `save_checkpoint` wrote. -/
theorem save_load_roundtrip (p : FPath) (L : ℚ)
    (hext : (splitext p).2 ≠ [])
    (hdash : ∀ c ∈ basename (splitext p).1, ¬(c = '-'))
    (hnorm : joinPath (dirname p) (basename p) = p) :
    load_constructor_parameters_path (model_path p L) = constructor_parameters_path p ∧
    load_optimizer_path (model_path p L) = optimizer_write_path p := by
  obtain ⟨t, hextform, ht⟩ := (splitext_ext_shape p).resolve_left hext
  have hE_noslash : ∀ c ∈ (splitext p).2, notSlash c = true := ext_all_notSlash p t hextform ht
  have hS_noslash : ∀ c ∈ "-state-dict-val_loss=".toList, notSlash c = true := by decide
  have hF_noslash := format6f_no_slash L
  have hY1 : ∀ c ∈ "-state-dict-val_loss=".toList ++ format6f L ++ (splitext p).2,
      notSlash c = true := by
    intro c hc
    rcases List.mem_append.mp hc with h1 | h2
    · rcases List.mem_append.mp h1 with h3 | h4
      · exact hS_noslash c h3
      · exact hF_noslash c h4
    · exact hE_noslash c h2
  have hmp_eq : model_path p L =
      (splitext p).1 ++ ("-state-dict-val_loss=".toList ++ format6f L ++ (splitext p).2) := by
    unfold model_path
    simp [List.append_assoc]
  have hdir : dirname (model_path p L) = dirname p := by
    rw [hmp_eq, dirname_append_no_slash _ _ hY1]
    conv_rhs => rw [← splitext_append_eq p hext]
    rw [dirname_append_no_slash _ _ hE_noslash]
  have hbase : basename (model_path p L) =
      basename (splitext p).1 ++
        ("-state-dict-val_loss=".toList ++ format6f L ++ (splitext p).2) := by
    rw [hmp_eq, basename_append_no_slash _ _ hY1]
  have hXlast : ∃ c, ((splitext p).1 ++ "-state-dict-val_loss=".toList ++
      format6f L).getLast? = some c ∧ notDotSlash c = true := by
    obtain ⟨c, hc1, hc2⟩ := format6f_getLast L
    refine ⟨c, ?_, hc2⟩
    rw [List.getLast?_append, hc1]
    rfl
  have hsplit_mp : splitext (model_path p L) =
      ((splitext p).1 ++ "-state-dict-val_loss=".toList ++ format6f L, '.' :: t) := by
    rw [show model_path p L = ((splitext p).1 ++ "-state-dict-val_loss=".toList ++
      format6f L) ++ '.' :: t from by unfold model_path; rw [hextform]]
    exact splitext_concat _ t ht hXlast
  have hext_mp : (splitext (model_path p L)).2 = (splitext p).2 := by
    rw [hsplit_mp]
    exact hextform.symm
  have hBdash : ∀ c ∈ basename (splitext p).1, (!(c == '-')) = true := by
    intro c hc
    simp [hdash c hc]
  have htake : (basename (model_path p L)).takeWhile (fun c => !(c == '-')) =
      basename (splitext p).1 := by
    rw [hbase]
    rw [show "-state-dict-val_loss=".toList ++ format6f L ++ (splitext p).2 =
      '-' :: ("state-dict-val_loss=".toList ++ format6f L ++ (splitext p).2) from by simp]
    rw [takeWhile_append_of_all _ _ _ hBdash, List.takeWhile_cons]
    norm_num
  have hBRne : basename (splitext p).1 ≠ [] := by
    have hany := splitext_root_cond p hext
    intro hnil
    unfold basename at hnil
    rw [List.reverse_eq_nil_iff] at hnil
    rw [hnil] at hany
    simp at hany
  have hbase_p : basename p = basename (splitext p).1 ++ (splitext p).2 := by
    conv_lhs => rw [← splitext_append_eq p hext]
    rw [basename_append_no_slash _ _ hE_noslash]
  have h3 : joinPath (dirname p) (basename (splitext p).1 ++ (splitext p).2) =
      (splitext p).1 ++ (splitext p).2 := by
    rw [← hbase_p, hnorm]
    exact (splitext_append_eq p hext).symm
  constructor
  · unfold load_constructor_parameters_path
    rw [hdir, hext_mp, htake, List.append_assoc]
    have hres := joinPath_extend (dirname p) (splitext p).1 (basename (splitext p).1)
      (splitext p).2 ("-parameters".toList ++ (splitext p).2) hBRne
      (basename_all_notSlash _) h3
    rw [hres]
    unfold constructor_parameters_path
    rw [List.append_assoc]
  · unfold load_optimizer_path optimizer_write_path
    rw [hdir, hext_mp]

/-- Witness for C10 (amended) at base path "exp/gcn.pt" and loss 1. -/
theorem save_load_roundtrip_witness :
    load_constructor_parameters_path (model_path "exp/gcn.pt".toList 1) =
      constructor_parameters_path "exp/gcn.pt".toList ∧
    load_optimizer_path (model_path "exp/gcn.pt".toList 1) =
      optimizer_write_path "exp/gcn.pt".toList :=
  save_load_roundtrip "exp/gcn.pt".toList 1 (by decide) (by decide) (by decide)
